import Mathlib

/-!
A shallow embedding of `src/crates/parsing/src/parser.rs`, the
token-consumption and event-log engine of a layout-sensitive parser.

Rust `Vec` push/pop at the back; the layout stack is embedded as a `List`
whose HEAD is the top of the stack (so `Vec::push` is `cons`, `Vec::pop`
is `tail`, `Vec::last` is `head?`, and the bottom of the stack is the
list's last element).  The event log keeps source order: `Vec::push` is
append at the right end.

Functions that can abort (a failed `assert!`, an explicit abort with a
message, an unreachable branch, or an out-of-bounds slice index) are
embedded in `Except String`; a `.error` value is an abort of the process.
-/

instance {ε α : Type} [DecidableEq ε] [DecidableEq α] : DecidableEq (Except ε α) := fun x y =>
  match x, y with
  | Except.ok a, Except.ok b =>
      if h : a = b then isTrue (by rw [h]) else isFalse (by intro hh; cases hh; exact h rfl)
  | Except.ok _, Except.error _ => isFalse (by intro h; cases h)
  | Except.error _, Except.ok _ => isFalse (by intro h; cases h)
  | Except.error a, Except.error b =>
      if h : a = b then isTrue (by rw [h]) else isFalse (by intro hh; cases hh; exact h rfl)

/-- Token and node kinds (crate `syntax`).  The set is closed and external;
we include the constructors the parser and its tests mention, plus the
placeholder `Sentinel` used by `Parser::start` and the end-of-input
sentinel returned by the token source for out-of-range indices. -/
inductive SyntaxKind where
  | Sentinel
  | EndOfFile
  | ModuleKw
  | WhereKw
  | Upper
  | Lower
  | Equal
  | LeftParenthesis
  | RightParenthesis
  | LiteralInteger
  | LiteralChar
  | LiteralNumber
  | ValueDeclaration
deriving DecidableEq, Repr

/-- `Position { offset, line, column }` (crate::position). -/
structure Position where
  offset : Nat
  line : Nat
  column : Nat
deriving DecidableEq, Repr

/-- `LayoutKind` (crate::layout). -/
inductive LayoutKind where
  | Root
  | Module
  | Instance
  | Parenthesis
deriving DecidableEq, Repr

/-- `Layout { kind, position }` (crate::layout). -/
structure Layout where
  kind : LayoutKind
  position : Position
deriving DecidableEq, Repr

/-- `Layout::new`. -/
def Layout.new (kind : LayoutKind) (position : Position) : Layout :=
  { kind := kind, position := position }

/-- A classified, positioned token of the token source. -/
structure Token where
  kind : SyntaxKind
  position : Position
deriving DecidableEq, Repr

/-- Modelled from the spec: the token source `Input` (crate::input) is a
read-only, random-access sequence of classified, positioned tokens,
exposing `len()`, `kind(index)` and `position(index)` only. -/
structure Input where
  tokens : List Token
deriving DecidableEq, Repr

/-- `Input::len`. -/
def Input.len (input : Input) : Nat :=
  input.tokens.length

/-- Modelled from the spec: `kind(index) -> TokenKind` "with an explicit
end-of-input sentinel for index ≥ len()"; it never fails. -/
def Input.kind (input : Input) (index : Nat) : SyntaxKind :=
  match input.tokens.get? index with
  | some t => t.kind
  | none => SyntaxKind.EndOfFile

/-- Modelled from the spec: `position(index) -> Position`, defined for
indices below `len()`; `none` embeds the abort on an out-of-range index. -/
def Input.position? (input : Input) (index : Nat) : Option Position :=
  (input.tokens.get? index).map Token.position

/-- `Event` (parser.rs): the flat tree-construction log entries. -/
inductive Event where
  | start (kind : SyntaxKind)
  | token (kind : SyntaxKind)
  | error (message : String)
  | finish
deriving DecidableEq, Repr

/-- `Parser { input, index, layouts, events }`. -/
structure Parser where
  input : Input
  index : Nat
  layouts : List Layout
  events : List Event
deriving DecidableEq, Repr

/-- `Parser::new`: index 0, a single `Root` layout anchored at offset 0,
line 1, column 1, and an empty event log. -/
def Parser.new (input : Input) : Parser :=
  { input := input
    index := 0
    layouts := [{ kind := LayoutKind.Root
                  position := { offset := 0, line := 1, column := 1 } }]
    events := [] }

/-- `Parser::is_eof`: `self.index == self.input.len()`. -/
def Parser.is_eof (p : Parser) : Bool :=
  p.index == p.input.len

/-- `Parser::layout_start`: asserts not-end-of-input, then pushes a context
anchored at the current token's position. -/
def Parser.layout_start (p : Parser) (kind : LayoutKind) : Except String Parser :=
  if p.is_eof then
    Except.error "assertion failed: !self.is_eof()"
  else
    match p.input.position? p.index with
    | none => Except.error "index out of bounds"
    | some position => Except.ok { p with layouts := Layout.new kind position :: p.layouts }

/-- `Parser::layout_end`: `self.layouts.pop()` — pops unconditionally
(`Vec::pop` on an empty vector is a no-op). -/
def Parser.layout_end (p : Parser) : Parser :=
  { p with layouts := p.layouts.tail }

/-- The message of the line assertion shared by `layout_done` and
`group_done`. -/
def assertLineMsg : String :=
  "assertion failed: position.line >= layout.position.line"

/-- `Parser::layout_done`. -/
def Parser.layout_done (p : Parser) : Except String Bool :=
  if p.is_eof then
    Except.ok true
  else
    match p.input.position? p.index with
    | none => Except.error "index out of bounds"
    | some position =>
      match p.layouts.head? with
      | none => Except.error "called unwrap on None"
      | some layout =>
        if position.line < layout.position.line then
          Except.error assertLineMsg
        else
          match layout.kind with
          | LayoutKind.Root => Except.error "Invalid call."
          | LayoutKind.Module => Except.ok false
          | LayoutKind.Instance => Except.ok (decide (position.column ≤ layout.position.column))
          | LayoutKind.Parenthesis => Except.ok false

/-- `Parser::group_done`. -/
def Parser.group_done (p : Parser) : Except String Bool :=
  if p.is_eof then
    Except.ok true
  else
    match p.input.position? p.index with
    | none => Except.error "index out of bounds"
    | some position =>
      match p.layouts.head? with
      | none => Except.error "called unwrap on None"
      | some layout =>
        if position.line < layout.position.line then
          Except.error assertLineMsg
        else
          match layout.kind with
          | LayoutKind.Root => Except.error "Invalid call."
          | LayoutKind.Module => Except.ok (decide (position.column = layout.position.column))
          | LayoutKind.Instance => Except.ok (decide (position.column ≤ layout.position.column))
          | LayoutKind.Parenthesis => Except.ok false

/-- `Parser::start`: appends `Start { kind: Sentinel }` and returns the
marker's log index (`NodeMarker::new(index)`; the `DropBomb` armed state is
tracked by the operation machinery below). -/
def Parser.start (p : Parser) : Nat × Parser :=
  (p.events.length, { p with events := p.events ++ [Event.start SyntaxKind.Sentinel] })

/-- `NodeMarker::end`: rewrites the marker's placeholder `Start` kind in
place and appends `Finish`; any non-`Start` entry at the marker's index is
an unreachable branch. -/
def NodeMarker.end_ (index : Nat) (p : Parser) (kind : SyntaxKind) : Except String Parser :=
  match p.events.get? index with
  | some (Event.start _) =>
      Except.ok { p with events := (p.events.set index (Event.start kind)) ++ [Event.finish] }
  | some _ => Except.error "internal error: entered unreachable code"
  | none => Except.error "index out of bounds"

/-- `NodeMarker::cancel`: if the marker's `Start` is still the log's last
entry, pops it (asserting it is a placeholder `Start`); otherwise leaves
the log untouched. -/
def NodeMarker.cancel (index : Nat) (p : Parser) : Except String Parser :=
  if index == p.events.length - 1 then
    match p.events.getLast? with
    | some (Event.start SyntaxKind.Sentinel) => Except.ok { p with events := p.events.dropLast }
    | _ => Except.error "internal error: entered unreachable code"
  else
    Except.ok p

/-- `Parser::nth`: `self.input.kind(self.index + offset)`. -/
def Parser.nth (p : Parser) (offset : Nat) : SyntaxKind :=
  p.input.kind (p.index + offset)

/-- `Parser::nth_at`: `self.nth(offset) == kind`. -/
def Parser.nth_at (p : Parser) (offset : Nat) (kind : SyntaxKind) : Bool :=
  decide (p.nth offset = kind)

/-- `Parser::current`: `self.nth(0)`. -/
def Parser.current (p : Parser) : SyntaxKind :=
  p.nth 0

/-- `Parser::at` (`at` is a Lean keyword): `self.nth_at(0, kind)`. -/
def Parser.at_ (p : Parser) (kind : SyntaxKind) : Bool :=
  p.nth_at 0 kind

/-- `Parser::consume`: reads the current kind, advances the index by one
and appends a `Token` event.  There is no end-of-input check. -/
def Parser.consume (p : Parser) : Parser :=
  { p with index := p.index + 1, events := p.events ++ [Event.token p.current] }

/-- `Parser::eat`: conditional `consume`, returns whether it matched. -/
def Parser.eat (p : Parser) (kind : SyntaxKind) : Bool × Parser :=
  if !(p.at_ kind) then (false, p) else (true, p.consume)

/-!
The grammar-facing operations, closed into a small step machine so that
properties about "any sequence of grammar-facing operations" can be
stated.  A `NodeMarker` is its event-log index; the `DropBomb` armed
state of the markers currently held by grammar code is the `armed` list
of the machine state, and — following the marker lifecycle
`Armed → {Finished, Cancelled}` with no reverse transition — `end` and
`cancel` are only ever invoked on an armed marker (invoking them on a
disarmed one is rejected by the machine).
-/

/-- One grammar-facing operation of the stable API. -/
inductive Op where
  | consume
  | eat (kind : SyntaxKind)
  | start
  | markerEnd (index : Nat) (kind : SyntaxKind)
  | markerCancel (index : Nat)
  | layoutStart (kind : LayoutKind)
  | layoutEnd
  | pollLayoutDone
  | pollGroupDone
  | pollNth (offset : Nat)
  | pollNthAt (offset : Nat) (kind : SyntaxKind)
  | pollCurrent
  | pollAt (kind : SyntaxKind)
  | pollIsEof
deriving DecidableEq, Repr

/-- The parser plus the indices of the markers that are currently armed. -/
structure GState where
  parser : Parser
  armed : List Nat
deriving DecidableEq, Repr

/-- Runs one grammar-facing operation.  The read-only queries
(`nth`, `nth_at`, `current`, `at`, `is_eof`, `layout_done`, `group_done`)
take the parser by shared reference in the source and hand the state back
unchanged; their results are discarded here. -/
def runOp (s : GState) (op : Op) : Except String GState :=
  match op with
  | Op.consume => Except.ok { s with parser := s.parser.consume }
  | Op.eat kind => Except.ok { s with parser := (s.parser.eat kind).2 }
  | Op.start =>
      let (index, parser) := s.parser.start
      Except.ok { parser := parser, armed := s.armed ++ [index] }
  | Op.markerEnd index kind =>
      if index ∈ s.armed then
        (NodeMarker.end_ index s.parser kind).map fun parser =>
          { parser := parser, armed := s.armed.erase index }
      else Except.error "marker is not armed"
  | Op.markerCancel index =>
      if index ∈ s.armed then
        (NodeMarker.cancel index s.parser).map fun parser =>
          { parser := parser, armed := s.armed.erase index }
      else Except.error "marker is not armed"
  | Op.layoutStart kind =>
      (s.parser.layout_start kind).map fun parser => { s with parser := parser }
  | Op.layoutEnd => Except.ok { s with parser := s.parser.layout_end }
  | Op.pollLayoutDone => (s.parser.layout_done).map fun _ => s
  | Op.pollGroupDone => (s.parser.group_done).map fun _ => s
  | Op.pollNth _ => Except.ok s
  | Op.pollNthAt _ _ => Except.ok s
  | Op.pollCurrent => Except.ok s
  | Op.pollAt _ => Except.ok s
  | Op.pollIsEof => Except.ok s

/-- Runs a sequence of grammar-facing operations, aborting at the first
failing one. -/
def run (s : GState) : List Op → Except String GState
  | [] => Except.ok s
  | op :: ops =>
      match runOp s op with
      | Except.error e => Except.error e
      | Except.ok s' => run s' ops

/-- The machine state right after `Parser::new`: no marker exists yet. -/
def initState (input : Input) : GState :=
  { parser := Parser.new input, armed := [] }

/-- Whether one operation is a leaf cancellation at the given state: a
`cancel` whose marker's `Start` is still the log's last entry.  Every
non-`cancel` operation passes. -/
def leafCancel (s : GState) (op : Op) : Bool :=
  match op with
  | Op.markerCancel index => index == s.parser.events.length - 1
  | _ => true

/-- Whether every cancellation performed along the run of `ops` from `s`
is a leaf cancellation (§9 of the spec: cancellation of a node that
already has children is the documented open question). -/
def leafCancelsOnly (s : GState) : List Op → Bool
  | [] => true
  | op :: ops =>
      leafCancel s op &&
        (match runOp s op with
         | Except.error _ => true
         | Except.ok s' => leafCancelsOnly s' ops)

/-- Whether an operation avoids committing a node with the placeholder
sentinel kind. -/
def sentinelFree (op : Op) : Bool :=
  match op with
  | Op.markerEnd _ kind => !(kind == SyntaxKind.Sentinel)
  | _ => true

/-- Whether no `end(kind)` in the sequence passes the placeholder
sentinel as the committed kind. -/
def sentinelFreeEnds (ops : List Op) : Bool :=
  ops.all sentinelFree

/-!
Well-formedness of the event log.  A log is well formed when it is the
flattening of a forest of node trees (matched `Start…Finish` pairs) and
leaf events; the `dyck` depth function and the `Builder` stack machine
mediate between the log and the forest.
-/

/-- A materialized tree over the flat event log: a node with committed
kind and children, or a leaf `Token`/`Error` event. -/
inductive ETree where
  | node (kind : SyntaxKind) (children : List ETree)
  | tok (kind : SyntaxKind)
  | err (message : String)

mutual

/-- Flattens one tree back to its event-log encoding. -/
def ETree.flatten : ETree → List Event
  | ETree.node kind children => Event.start kind :: (ETree.flattenList children ++ [Event.finish])
  | ETree.tok kind => [Event.token kind]
  | ETree.err message => [Event.error message]

/-- Flattens a forest back to its event-log encoding. -/
def ETree.flattenList : List ETree → List Event
  | [] => []
  | t :: ts => ETree.flatten t ++ ETree.flattenList ts

end

/-- Nesting depth after reading a log, starting from depth `d`; `none`
when some `Finish` has no matching `Start` to its left. -/
def dyck (d : Nat) : List Event → Option Nat
  | [] => some d
  | Event.start _ :: es => dyck (d + 1) es
  | Event.finish :: es => if d = 0 then none else dyck (d - 1) es
  | Event.token _ :: es => dyck d es
  | Event.error _ :: es => dyck d es

/-- The stack machine that rebuilds a forest from a log: open frames
(committed kind plus reversed children so far) above the finished
top-level trees (also reversed). -/
structure Builder where
  stack : List (SyntaxKind × List ETree)
  done : List ETree

/-- Adds one finished tree to the innermost open frame, or to the
top-level trees when no frame is open. -/
def Builder.addTree (b : Builder) (t : ETree) : Builder :=
  match b.stack with
  | [] => { b with done := t :: b.done }
  | (kind, children) :: rest => { b with stack := (kind, t :: children) :: rest }

/-- Feeds one event to the builder. -/
def Builder.step (b : Builder) : Event → Option Builder
  | Event.token kind => some (b.addTree (ETree.tok kind))
  | Event.error message => some (b.addTree (ETree.err message))
  | Event.start kind => some { b with stack := (kind, []) :: b.stack }
  | Event.finish =>
      match b.stack with
      | [] => none
      | (kind, children) :: rest =>
          some (Builder.addTree { b with stack := rest } (ETree.node kind children.reverse))

/-- Feeds a whole log to the builder. -/
def Builder.runList (b : Builder) : List Event → Option Builder
  | [] => some b
  | e :: es =>
      match b.step e with
      | none => none
      | some b' => b'.runList es

/-- The log a builder state stands for: the finished top-level trees
followed by each still-open frame, outermost first. -/
def Builder.repr (b : Builder) : List Event :=
  ETree.flattenList b.done.reverse ++
    (b.stack.reverse.map fun f => Event.start f.1 :: ETree.flattenList f.2.reverse).flatten

theorem ETree.flattenList_append (ts us : List ETree) :
    ETree.flattenList (ts ++ us) = ETree.flattenList ts ++ ETree.flattenList us := by
  induction ts with
  | nil => simp [ETree.flattenList]
  | cons t ts ih => simp [ETree.flattenList, ih]

theorem dyck_append (es es' : List Event) (d : Nat) :
    dyck d (es ++ es') = (dyck d es).bind fun d' => dyck d' es' := by
  induction es generalizing d with
  | nil => simp [dyck]
  | cons e es ih =>
    cases e with
    | start k => simp [dyck, ih]
    | token k => simp [dyck, ih]
    | error m => simp [dyck, ih]
    | finish =>
      by_cases h : d = 0
      · simp [dyck, h]
      · simp [dyck, h, ih]

theorem dyck_set_start (es : List Event) (i d : Nat) (k k' : SyntaxKind)
    (h : es.get? i = some (Event.start k')) :
    dyck d (es.set i (Event.start k)) = dyck d es := by
  induction es generalizing i d with
  | nil => simp at h
  | cons e es ih =>
    cases i with
    | zero =>
      have he : e = Event.start k' := by simpa using h
      subst he
      simp [dyck]
    | succ i =>
      have h' : es.get? i = some (Event.start k') := by simpa using h
      cases e with
      | start k₀ => simp [dyck, ih _ _ h']
      | token k₀ => simp [dyck, ih _ _ h']
      | error m => simp [dyck, ih _ _ h']
      | finish =>
        by_cases hd : d = 0
        · simp [dyck, hd]
        · simp [dyck, hd, ih _ _ h']

theorem Builder.addTree_stack_length (b : Builder) (t : ETree) :
    (b.addTree t).stack.length = b.stack.length := by
  obtain ⟨stack, done⟩ := b
  cases stack with
  | nil => simp [Builder.addTree]
  | cons f rest => obtain ⟨kind, children⟩ := f; simp [Builder.addTree]

theorem Builder.runList_total (es : List Event) (b : Builder) (d : Nat)
    (h : dyck b.stack.length es = some d) :
    ∃ b', b.runList es = some b' ∧ b'.stack.length = d := by
  induction es generalizing b with
  | nil =>
    refine ⟨b, rfl, ?_⟩
    simpa [dyck] using h
  | cons e es ih =>
    cases e with
    | start k =>
      have h' : dyck ((k, []) :: b.stack).length es = some d := by
        simpa [dyck] using h
      obtain ⟨b', hb', hd⟩ := ih { b with stack := (k, []) :: b.stack } h'
      exact ⟨b', by simpa [Builder.runList, Builder.step] using hb', hd⟩
    | token k =>
      have h' : dyck ((b.addTree (ETree.tok k)).stack.length) es = some d := by
        rw [Builder.addTree_stack_length]
        simpa [dyck] using h
      obtain ⟨b', hb', hd⟩ := ih (b.addTree (ETree.tok k)) h'
      exact ⟨b', by simpa [Builder.runList, Builder.step] using hb', hd⟩
    | error m =>
      have h' : dyck ((b.addTree (ETree.err m)).stack.length) es = some d := by
        rw [Builder.addTree_stack_length]
        simpa [dyck] using h
      obtain ⟨b', hb', hd⟩ := ih (b.addTree (ETree.err m)) h'
      exact ⟨b', by simpa [Builder.runList, Builder.step] using hb', hd⟩
    | finish =>
      have hne : b.stack.length ≠ 0 := by
        intro h0
        simp [dyck, h0] at h
      obtain ⟨f, rest, hstack⟩ : ∃ f rest, b.stack = f :: rest := by
        cases hb : b.stack with
        | nil => exact absurd (by simp [hb]) hne
        | cons f rest => exact ⟨f, rest, rfl⟩
      obtain ⟨kind, children⟩ := f
      have h' : dyck ((Builder.addTree { b with stack := rest }
          (ETree.node kind children.reverse)).stack.length) es = some d := by
        rw [Builder.addTree_stack_length]
        have : b.stack.length - 1 = rest.length := by simp [hstack]
        simpa [dyck, hne, this] using h
      obtain ⟨b', hb', hd⟩ := ih _ h'
      exact ⟨b', by simpa [Builder.runList, Builder.step, hstack] using hb', hd⟩

theorem Builder.step_repr (b b' : Builder) (e : Event) (h : b.step e = some b') :
    b'.repr = b.repr ++ [e] := by
  obtain ⟨stack, done⟩ := b
  cases e with
  | token k =>
    cases stack with
    | nil =>
      have hb : b' = { stack := [], done := ETree.tok k :: done } := by
        simpa [Builder.step, Builder.addTree] using h.symm
      subst hb
      simp [Builder.repr, ETree.flattenList_append, ETree.flattenList, ETree.flatten]
    | cons f rest =>
      obtain ⟨fk, fc⟩ := f
      have hb : b' = { stack := (fk, ETree.tok k :: fc) :: rest, done := done } := by
        simpa [Builder.step, Builder.addTree] using h.symm
      subst hb
      simp [Builder.repr, ETree.flattenList_append, ETree.flattenList, ETree.flatten]
  | error m =>
    cases stack with
    | nil =>
      have hb : b' = { stack := [], done := ETree.err m :: done } := by
        simpa [Builder.step, Builder.addTree] using h.symm
      subst hb
      simp [Builder.repr, ETree.flattenList_append, ETree.flattenList, ETree.flatten]
    | cons f rest =>
      obtain ⟨fk, fc⟩ := f
      have hb : b' = { stack := (fk, ETree.err m :: fc) :: rest, done := done } := by
        simpa [Builder.step, Builder.addTree] using h.symm
      subst hb
      simp [Builder.repr, ETree.flattenList_append, ETree.flattenList, ETree.flatten]
  | start k =>
    have hb : b' = { stack := (k, []) :: stack, done := done } := by
      simpa [Builder.step] using h.symm
    subst hb
    simp [Builder.repr, ETree.flattenList_append, ETree.flattenList, ETree.flatten]
  | finish =>
    cases stack with
    | nil => simp [Builder.step] at h
    | cons f rest =>
      obtain ⟨fk, fc⟩ := f
      cases rest with
      | nil =>
        have hb : b' = { stack := [], done := ETree.node fk fc.reverse :: done } := by
          simpa [Builder.step, Builder.addTree] using h.symm
        subst hb
        simp [Builder.repr, ETree.flattenList_append, ETree.flattenList, ETree.flatten]
      | cons g r2 =>
        obtain ⟨gk, gc⟩ := g
        have hb : b' = { stack := (gk, ETree.node fk fc.reverse :: gc) :: r2, done := done } := by
          simpa [Builder.step, Builder.addTree] using h.symm
        subst hb
        simp [Builder.repr, ETree.flattenList_append, ETree.flattenList, ETree.flatten]

theorem Builder.runList_repr (es : List Event) (b b' : Builder)
    (h : b.runList es = some b') : b'.repr = b.repr ++ es := by
  induction es generalizing b with
  | nil =>
    have hb : b' = b := by simpa [Builder.runList] using h.symm
    subst hb
    simp
  | cons e es ih =>
    cases hs : b.step e with
    | none => simp [Builder.runList, hs] at h
    | some b₂ =>
      have h₂ : b₂.runList es = some b' := by simpa [Builder.runList, hs] using h
      rw [ih b₂ h₂, Builder.step_repr b b₂ e hs]
      simp

/-- A balanced log is the flattening of some forest. -/
theorem balanced_forest (es : List Event) (h : dyck 0 es = some 0) :
    ∃ ts : List ETree, ETree.flattenList ts = es := by
  obtain ⟨b', hrun, hlen⟩ :=
    Builder.runList_total es { stack := [], done := [] } 0 (by simpa using h)
  have hstack : b'.stack = [] := List.length_eq_zero.mp hlen
  have hrepr := Builder.runList_repr es { stack := [], done := [] } b' hrun
  refine ⟨b'.done.reverse, ?_⟩
  obtain ⟨stack', done'⟩ := b'
  simp only at hstack
  subst hstack
  simpa [Builder.repr, ETree.flattenList] using hrepr

/-- The log/marker invariant maintained by every grammar-facing
operation (under leaf-only cancellation and sentinel-free commits):
each armed marker points at a placeholder `Start`, armed markers are
pairwise distinct, the log is a balanced prefix whose pending depth is
the number of armed markers, and every placeholder `Start` in the log
belongs to an armed marker. -/
def InvEA (es : List Event) (A : List Nat) : Prop :=
  (∀ i ∈ A, es.get? i = some (Event.start SyntaxKind.Sentinel)) ∧
  A.Nodup ∧
  dyck 0 es = some A.length ∧
  (∀ i, es.get? i = some (Event.start SyntaxKind.Sentinel) → i ∈ A)

/-- `InvEA` at a machine state. -/
def MachineInv (s : GState) : Prop :=
  InvEA s.parser.events s.armed

theorem InvEA.mem_lt {es : List Event} {A : List Nat} (h : InvEA es A) :
    ∀ i ∈ A, i < es.length := fun i hi =>
  (List.get?_eq_some.mp (h.1 i hi)).1

theorem get?_concat_cases {es : List Event} {x : Event} {i : Nat} {v : Event}
    (h : (es ++ [x]).get? i = some v) :
    es.get? i = some v ∨ (i = es.length ∧ v = x) := by
  have hlen : i < es.length + 1 := by
    have := (List.get?_eq_some.mp h).1
    simpa using this
  rcases Nat.lt_or_ge i es.length with hlt | hge
  · left
    rw [List.get?_append hlt] at h
    exact h
  · right
    have hi : i = es.length := Nat.le_antisymm (Nat.lt_succ_iff.mp hlen) hge
    subst hi
    rw [List.get?_concat_length] at h
    exact ⟨rfl, (Option.some.injEq _ _).mp h.symm⟩

theorem InvEA.append_token {es : List Event} {A : List Nat} (h : InvEA es A)
    (k : SyntaxKind) : InvEA (es ++ [Event.token k]) A := by
  obtain ⟨h1, h2, h3, h4⟩ := h
  refine ⟨?_, h2, ?_, ?_⟩
  · intro i hi
    rw [List.get?_append (InvEA.mem_lt ⟨h1, h2, h3, h4⟩ i hi)]
    exact h1 i hi
  · rw [dyck_append, h3]
    simp [dyck]
  · intro i hi
    rcases get?_concat_cases hi with hold | ⟨_, hv⟩
    · exact h4 i hold
    · cases hv

theorem InvEA.append_start {es : List Event} {A : List Nat} (h : InvEA es A) :
    InvEA (es ++ [Event.start SyntaxKind.Sentinel]) (A ++ [es.length]) := by
  obtain ⟨h1, h2, h3, h4⟩ := h
  have hlt : ∀ i ∈ A, i < es.length := InvEA.mem_lt ⟨h1, h2, h3, h4⟩
  refine ⟨?_, ?_, ?_, ?_⟩
  · intro i hi
    rcases List.mem_append.mp hi with hiA | hinew
    · rw [List.get?_append (hlt i hiA)]
      exact h1 i hiA
    · have : i = es.length := by simpa using hinew
      subst this
      exact List.get?_concat_length es _
  · rw [List.nodup_append]
    refine ⟨h2, by simp, ?_⟩
    intro a haA hanew
    have : a = es.length := by simpa using hanew
    subst this
    exact absurd (hlt _ haA) (lt_irrefl _)
  · rw [dyck_append, h3]
    simp [dyck]
  · intro i hi
    rcases get?_concat_cases hi with hold | ⟨hlen, _⟩
    · exact List.mem_append.mpr (Or.inl (h4 i hold))
    · subst hlen
      simp

theorem InvEA.end_marker {es : List Event} {A : List Nat} {i : Nat} {k : SyntaxKind}
    (h : InvEA es A) (hi : i ∈ A) (hk : k ≠ SyntaxKind.Sentinel) :
    InvEA ((es.set i (Event.start k)) ++ [Event.finish]) (A.erase i) := by
  obtain ⟨h1, h2, h3, h4⟩ := h
  have hstart : es.get? i = some (Event.start SyntaxKind.Sentinel) := h1 i hi
  have hilt : i < es.length := (List.get?_eq_some.mp hstart).1
  have hAne : A.length ≠ 0 := by
    intro h0
    rw [List.length_eq_zero] at h0
    subst h0
    cases hi
  refine ⟨?_, h2.erase i, ?_, ?_⟩
  · intro j hj
    obtain ⟨hne, hjA⟩ := h2.mem_erase_iff.mp hj
    have hjlt : j < es.length := (List.get?_eq_some.mp (h1 j hjA)).1
    rw [List.get?_append (by simpa using hjlt), List.get?_set_ne _ _ (Ne.symm hne)]
    exact h1 j hjA
  · rw [dyck_append, dyck_set_start es i 0 k SyntaxKind.Sentinel hstart, h3]
    simp [dyck, hAne, List.length_erase_of_mem hi]
  · intro j hj
    rcases get?_concat_cases hj with hset | ⟨_, hv⟩
    · by_cases hji : j = i
      · subst hji
        rw [List.get?_set_eq_of_lt _ hilt] at hset
        exact absurd (by simpa using hset) hk
      · rw [List.get?_set_ne _ _ (fun h => hji h.symm)] at hset
        exact h2.mem_erase_iff.mpr ⟨hji, h4 j hset⟩
    · cases hv

theorem InvEA.cancel_marker {es : List Event} {A : List Nat} {i : Nat}
    (h : InvEA es A) (hi : i ∈ A) (hleaf : i = es.length - 1) :
    InvEA es.dropLast (A.erase i) := by
  obtain ⟨h1, h2, h3, h4⟩ := h
  have hstart : es.get? i = some (Event.start SyntaxKind.Sentinel) := h1 i hi
  have hilt : i < es.length := (List.get?_eq_some.mp hstart).1
  have hne : es ≠ [] := by
    intro h0
    subst h0
    simp at hilt
  have hdrop : es.dropLast.length = es.length - 1 := List.length_dropLast es
  have hsplit : es.dropLast ++ [Event.start SyntaxKind.Sentinel] = es := by
    have hg : es.getLast hne = Event.start SyntaxKind.Sentinel := by
      have := List.getLast_eq_get es hne
      rw [this]
      have h' : es.get? (es.length - 1) = some (Event.start SyntaxKind.Sentinel) := by
        rw [← hleaf]; exact hstart
      have hlt' : es.length - 1 < es.length := by omega
      rw [List.get?_eq_get hlt'] at h'
      exact (Option.some.injEq _ _).mp h'
    rw [← hg]
    exact List.dropLast_append_getLast hne
  have hAne : A.length ≠ 0 := by
    intro h0
    rw [List.length_eq_zero] at h0
    subst h0
    cases hi
  refine ⟨?_, h2.erase i, ?_, ?_⟩
  · intro j hj
    obtain ⟨hjne, hjA⟩ := h2.mem_erase_iff.mp hj
    have hjlt : j < es.length := (List.get?_eq_some.mp (h1 j hjA)).1
    have hjlt' : j < es.dropLast.length := by omega
    have := h1 j hjA
    rw [← hsplit, List.get?_append hjlt'] at this
    exact this
  · rw [← hsplit, dyck_append] at h3
    cases hd : dyck 0 es.dropLast with
    | none => rw [hd] at h3; simp at h3
    | some d₀ =>
      rw [hd] at h3
      simp [dyck] at h3
      have hlen : (A.erase i).length = d₀ := by
        rw [List.length_erase_of_mem hi]
        omega
      rw [hlen]
  · intro j hj
    have hjlt' : j < es.dropLast.length := (List.get?_eq_some.mp hj).1
    have hjes : es.get? j = some (Event.start SyntaxKind.Sentinel) := by
      rw [← hsplit, List.get?_append hjlt']
      exact hj
    have hjA : j ∈ A := h4 j hjes
    have hjne : j ≠ i := by omega
    exact h2.mem_erase_iff.mpr ⟨hjne, hjA⟩

theorem Parser.layout_start_ok_events {p : Parser} {k : LayoutKind} {p' : Parser}
    (h : p.layout_start k = Except.ok p') : p'.events = p.events := by
  unfold Parser.layout_start at h
  split at h
  · exact Except.noConfusion h
  · split at h
    · exact Except.noConfusion h
    · injection h with h
      subst h
      rfl

theorem getLast?_of_get?_last {es : List Event} {v : Event}
    (h : es.get? (es.length - 1) = some v) : es.getLast? = some v := by
  have hlt : es.length - 1 < es.length := (List.get?_eq_some.mp h).1
  have hne : es ≠ [] := by
    intro h0
    subst h0
    simp at hlt
  rw [List.getLast?_eq_getLast es hne, List.getLast_eq_get es hne]
  rw [List.get?_eq_get hlt] at h
  exact congrArg some ((Option.some.injEq _ _).mp h)

/-- Every grammar-facing operation that succeeds preserves the
log/marker invariant, provided cancellations are leaf cancellations and
commits avoid the sentinel kind. -/
theorem runOp_preserves_inv {s s' : GState} {op : Op}
    (hInv : MachineInv s) (hleaf : leafCancel s op = true) (hsf : sentinelFree op = true)
    (hrun : runOp s op = Except.ok s') : MachineInv s' := by
  cases op with
  | consume =>
    injection hrun with hrun
    subst hrun
    exact InvEA.append_token hInv _
  | eat kind =>
    cases hat : s.parser.at_ kind with
    | false =>
      simp only [runOp, Parser.eat, hat, Bool.not_false, if_true] at hrun
      injection hrun with hrun
      subst hrun
      exact hInv
    | true =>
      simp only [runOp, Parser.eat, hat, Bool.not_true, if_false] at hrun
      injection hrun with hrun
      subst hrun
      exact InvEA.append_token hInv _
  | start =>
    simp only [runOp, Parser.start] at hrun
    injection hrun with hrun
    subst hrun
    exact InvEA.append_start hInv
  | markerEnd index kind =>
    simp only [runOp] at hrun
    split at hrun
    case isFalse => exact Except.noConfusion hrun
    case isTrue hmem =>
      have hstart : s.parser.events.get? index = some (Event.start SyntaxKind.Sentinel) :=
        hInv.1 index hmem
      rw [NodeMarker.end_, hstart] at hrun
      simp only [Except.map] at hrun
      injection hrun with hrun
      subst hrun
      exact InvEA.end_marker hInv hmem (by simpa [sentinelFree] using hsf)
  | markerCancel index =>
    simp only [runOp] at hrun
    split at hrun
    case isFalse => exact Except.noConfusion hrun
    case isTrue hmem =>
      have hstart : s.parser.events.get? index = some (Event.start SyntaxKind.Sentinel) :=
        hInv.1 index hmem
      have hidx : index = s.parser.events.length - 1 := by
        simpa [leafCancel] using hleaf
      have hlast : s.parser.events.getLast? = some (Event.start SyntaxKind.Sentinel) :=
        getLast?_of_get?_last (hidx ▸ hstart)
      rw [NodeMarker.cancel] at hrun
      rw [if_pos (by simpa using hidx), hlast] at hrun
      simp only [Except.map] at hrun
      injection hrun with hrun
      subst hrun
      exact InvEA.cancel_marker hInv hmem hidx
  | layoutStart kind =>
    simp only [runOp] at hrun
    cases hls : s.parser.layout_start kind with
    | error e => rw [hls] at hrun; exact Except.noConfusion hrun
    | ok p' =>
      rw [hls] at hrun
      simp only [Except.map] at hrun
      injection hrun with hrun
      subst hrun
      show InvEA p'.events s.armed
      rw [Parser.layout_start_ok_events hls]
      exact hInv
  | layoutEnd =>
    injection hrun with hrun
    subst hrun
    exact hInv
  | pollLayoutDone =>
    simp only [runOp] at hrun
    cases hld : s.parser.layout_done with
    | error e => rw [hld] at hrun; exact Except.noConfusion hrun
    | ok b =>
      rw [hld] at hrun
      simp only [Except.map] at hrun
      injection hrun with hrun
      subst hrun
      exact hInv
  | pollGroupDone =>
    simp only [runOp] at hrun
    cases hgd : s.parser.group_done with
    | error e => rw [hgd] at hrun; exact Except.noConfusion hrun
    | ok b =>
      rw [hgd] at hrun
      simp only [Except.map] at hrun
      injection hrun with hrun
      subst hrun
      exact hInv
  | pollNth offset =>
    injection hrun with hrun
    subst hrun
    exact hInv
  | pollNthAt offset kind =>
    injection hrun with hrun
    subst hrun
    exact hInv
  | pollCurrent =>
    injection hrun with hrun
    subst hrun
    exact hInv
  | pollAt kind =>
    injection hrun with hrun
    subst hrun
    exact hInv
  | pollIsEof =>
    injection hrun with hrun
    subst hrun
    exact hInv

/-- The invariant is preserved along a whole run. -/
theorem run_preserves_inv {ops : List Op} {s s' : GState}
    (hInv : MachineInv s) (hleaf : leafCancelsOnly s ops = true)
    (hsf : sentinelFreeEnds ops = true) (hrun : run s ops = Except.ok s') :
    MachineInv s' := by
  induction ops generalizing s with
  | nil =>
    injection hrun with hrun
    subst hrun
    exact hInv
  | cons op ops ih =>
    cases hstep : runOp s op with
    | error e =>
      rw [run, hstep] at hrun
      exact Except.noConfusion hrun
    | ok s₁ =>
      rw [run, hstep] at hrun
      have hl : leafCancel s op = true ∧ leafCancelsOnly s₁ ops = true := by
        rw [leafCancelsOnly, hstep] at hleaf
        exact Bool.and_eq_true_iff.mp hleaf
      have hs : sentinelFree op = true ∧ sentinelFreeEnds ops = true := by
        rw [sentinelFreeEnds, List.all_cons] at hsf
        exact Bool.and_eq_true_iff.mp hsf
      exact ih (runOp_preserves_inv hInv hl.1 hs.1 hstep) hl.2 hs.2 hrun

/-- The invariant holds right after `Parser::new`. -/
theorem initState_inv (input : Input) : MachineInv (initState input) := by
  refine ⟨?_, ?_, ?_, ?_⟩
  · intro i hi
    cases hi
  · exact List.nodup_nil
  · rfl
  · intro i hi
    simp [initState, Parser.new] at hi

/-- The event-log shape claimed by the spec: a sequence of matched
`Start(kind)…Finish` trees with `Token`/`Error` events only nested
inside them (so every top-level tree is a node), and no `Start`
carrying the placeholder sentinel kind. -/
def claimedLogWF (es : List Event) : Prop :=
  (∃ ts : List ETree, (∀ t ∈ ts, ∃ k cs, t = ETree.node k cs) ∧ ETree.flattenList ts = es) ∧
  (∀ k, Event.start k ∈ es → k ≠ SyntaxKind.Sentinel)

/-- A one-token input used by concrete scenarios. -/
def oneTokenInput : Input :=
  { tokens := [{ kind := SyntaxKind.Upper, position := { offset := 0, line := 1, column := 1 } }] }

/-- C1 (amended): for every sequence of grammar-facing operations that
runs without aborting, leaves no marker armed, cancels markers only
while their `Start` is still the log's last entry, and never commits the
placeholder sentinel kind, the resulting event log is a well-formed
forest — the flattening of a sequence of matched `Start(kind)…Finish`
trees and top-level `Token`/`Error` leaves — and no `Start` in the log
carries the placeholder sentinel kind. -/
theorem event_log_wellformed (input : Input) (ops : List Op) (s' : GState)
    (hrun : run (initState input) ops = Except.ok s')
    (hleaf : leafCancelsOnly (initState input) ops = true)
    (hsf : sentinelFreeEnds ops = true)
    (hdisarmed : s'.armed = []) :
    (∃ ts : List ETree, ETree.flattenList ts = s'.parser.events) ∧
    (∀ k, Event.start k ∈ s'.parser.events → k ≠ SyntaxKind.Sentinel) := by
  obtain ⟨h1, h2, h3, h4⟩ := run_preserves_inv (initState_inv input) hleaf hsf hrun
  constructor
  · refine balanced_forest _ ?_
    rw [h3, hdisarmed]
    rfl
  · intro k hk hke
    subst hke
    obtain ⟨n, hn⟩ := List.get?_of_mem hk
    have hmem := h4 n hn
    rw [hdisarmed] at hmem
    cases hmem

/-- C1 witness: the run `start; consume; end(ValueDeclaration)` on a
one-token input satisfies every hypothesis and yields the well-formed
log `[Start ValueDeclaration, Token Upper, Finish]`. -/
theorem event_log_wellformed_witness :
    (∃ ts : List ETree, ETree.flattenList ts
        = [Event.start SyntaxKind.ValueDeclaration, Event.token SyntaxKind.Upper, Event.finish]) ∧
    (∀ k, Event.start k ∈ [Event.start SyntaxKind.ValueDeclaration, Event.token SyntaxKind.Upper,
        Event.finish] → k ≠ SyntaxKind.Sentinel) :=
  event_log_wellformed oneTokenInput
    [Op.start, Op.consume, Op.markerEnd 0 SyntaxKind.ValueDeclaration]
    { parser := { input := oneTokenInput, index := 1
                  layouts := [{ kind := LayoutKind.Root
                                position := { offset := 0, line := 1, column := 1 } }]
                  events := [Event.start SyntaxKind.ValueDeclaration, Event.token SyntaxKind.Upper,
                             Event.finish] }
      armed := [] }
    (by decide) (by decide) (by decide) rfl

/-- C1 counterexample: the claim as stated is false.  Cancelling a
marker after a child event was appended (`start; consume; cancel`)
leaves no marker armed, yet the log keeps an unmatched placeholder
`Start`; and a bare `consume` leaves a `Token` event at top level,
nested inside no `Start…Finish` pair. -/
theorem event_log_wellformed_counterexample :
    (run (initState oneTokenInput) [Op.start, Op.consume, Op.markerCancel 0]
      = Except.ok
          { parser := { input := oneTokenInput, index := 1
                        layouts := [{ kind := LayoutKind.Root
                                      position := { offset := 0, line := 1, column := 1 } }]
                        events := [Event.start SyntaxKind.Sentinel, Event.token SyntaxKind.Upper] }
            armed := [] }) ∧
    ¬ claimedLogWF [Event.start SyntaxKind.Sentinel, Event.token SyntaxKind.Upper] ∧
    (run (initState oneTokenInput) [Op.consume]
      = Except.ok
          { parser := { input := oneTokenInput, index := 1
                        layouts := [{ kind := LayoutKind.Root
                                      position := { offset := 0, line := 1, column := 1 } }]
                        events := [Event.token SyntaxKind.Upper] }
            armed := [] }) ∧
    ¬ claimedLogWF [Event.token SyntaxKind.Upper] := by
  refine ⟨by decide, ?_, by decide, ?_⟩
  · rintro ⟨-, hsent⟩
    exact hsent SyntaxKind.Sentinel (by simp) rfl
  · rintro ⟨⟨ts, hnode, hflat⟩, -⟩
    cases ts with
    | nil => simp [ETree.flattenList] at hflat
    | cons t ts =>
      obtain ⟨k, cs, ht⟩ := hnode t (by simp)
      subst ht
      simp [ETree.flattenList, ETree.flatten] at hflat

/-- The `Root` context a fresh parser starts with. -/
def rootLayout : Layout :=
  { kind := LayoutKind.Root, position := { offset := 0, line := 1, column := 1 } }

/-- C2 (amended): `consume()` never aborts, not even at end-of-input: it
always appends exactly one `Token` event carrying the current token's
kind — the end-of-input sentinel when at end-of-input — and advances the
cursor index by exactly one, leaving input and layout stack untouched. -/
theorem consume_spec (p : Parser) :
    p.consume.index = p.index + 1 ∧
    p.consume.events = p.events ++ [Event.token p.current] ∧
    p.consume.layouts = p.layouts ∧
    p.consume.input = p.input ∧
    (p.is_eof = true → p.current = SyntaxKind.EndOfFile) := by
  refine ⟨rfl, rfl, rfl, rfl, ?_⟩
  intro h
  have hlen : p.input.tokens.length ≤ p.index := by
    have : p.index = p.input.len := by simpa [Parser.is_eof] using h
    simp [Input.len] at this
    omega
  have hnone : p.input.tokens.get? (p.index + 0) = none :=
    List.get?_eq_none.mpr (by omega)
  simp only [Parser.current, Parser.nth, Input.kind]
  rw [hnone]

/-- C2 witness: at end-of-input the appended `Token` carries the
end-of-input sentinel. -/
theorem consume_spec_witness :
    (Parser.new { tokens := [] }).is_eof = true ∧
    (Parser.new { tokens := [] }).current = SyntaxKind.EndOfFile :=
  ⟨by decide, (consume_spec (Parser.new { tokens := [] })).2.2.2.2 (by decide)⟩

/-- C2 counterexample: called at end-of-input, `consume()` does not
abort — it returns normally, having appended a `Token` event with the
end-of-input sentinel kind and advanced the index past the input. -/
theorem consume_spec_counterexample :
    (Parser.new { tokens := [] }).is_eof = true ∧
    (Parser.new { tokens := [] }).consume.events = [Event.token SyntaxKind.EndOfFile] ∧
    (Parser.new { tokens := [] }).consume.index = 1 := by
  decide

/-- C3 (amended): `layout_done()` returns `true` whenever the parser is
at end-of-input; when a current token exists (so the parser is not at
end-of-input) and its line does not precede the top context's anchor
line, `layout_done()` aborts fatally if the top context is `Root`,
returns `false` for `Module`, returns `true` iff the current column is
at most the anchor column for `Instance`, and returns `false` for
`Parenthesis`. -/
theorem layout_done_spec (p : Parser) (position : Position) (layout : Layout) :
    (p.is_eof = true → p.layout_done = Except.ok true) ∧
    (p.input.position? p.index = some position → p.layouts.head? = some layout →
      layout.position.line ≤ position.line →
      ((layout.kind = LayoutKind.Root → p.layout_done = Except.error "Invalid call.") ∧
       (layout.kind = LayoutKind.Module → p.layout_done = Except.ok false) ∧
       (layout.kind = LayoutKind.Instance →
          p.layout_done = Except.ok (decide (position.column ≤ layout.position.column))) ∧
       (layout.kind = LayoutKind.Parenthesis → p.layout_done = Except.ok false))) := by
  constructor
  · intro h
    simp [Parser.layout_done, h]
  · intro hpos hhead hline
    obtain ⟨t, ht, hpt⟩ := Option.map_eq_some'.mp hpos
    have hlt : p.index < p.input.tokens.length := (List.get?_eq_some.mp ht).1
    have heof : p.is_eof = false := by
      simp only [Parser.is_eof, Input.len, beq_eq_false_iff_ne, ne_eq]
      omega
    have hnl : ¬(position.line < layout.position.line) := not_lt.mpr hline
    refine ⟨?_, ?_, ?_, ?_⟩ <;> intro hk <;>
      simp [Parser.layout_done, heof, hpos, hhead, hnl, hk]

/-- A parser inside an `Instance` context anchored at column 5, whose
current token sits at line 2, column 3. -/
def instParser : Parser :=
  { input := { tokens := [{ kind := SyntaxKind.Lower
                            position := { offset := 0, line := 1, column := 5 } },
                          { kind := SyntaxKind.Lower
                            position := { offset := 6, line := 2, column := 3 } }] }
    index := 1
    layouts := [Layout.new LayoutKind.Instance { offset := 0, line := 1, column := 5 }, rootLayout]
    events := [Event.token SyntaxKind.Lower] }

/-- Like `instParser`, but the current token's column equals the anchor
column exactly. -/
def instEqParser : Parser :=
  { input := { tokens := [{ kind := SyntaxKind.Lower
                            position := { offset := 0, line := 1, column := 5 } },
                          { kind := SyntaxKind.Lower
                            position := { offset := 6, line := 2, column := 5 } }] }
    index := 1
    layouts := [Layout.new LayoutKind.Instance { offset := 0, line := 1, column := 5 }, rootLayout]
    events := [Event.token SyntaxKind.Lower] }

/-- C3 witness: the end-of-input, `Root` and `Instance` clauses at
concrete parsers. -/
theorem layout_done_spec_witness :
    (Parser.new { tokens := [] }).layout_done = Except.ok true ∧
    (Parser.new oneTokenInput).layout_done = Except.error "Invalid call." ∧
    instParser.layout_done = Except.ok true := by
  refine ⟨(layout_done_spec (Parser.new { tokens := [] })
            { offset := 0, line := 1, column := 1 } rootLayout).1 (by decide), ?_, ?_⟩
  · exact ((layout_done_spec (Parser.new oneTokenInput)
      { offset := 0, line := 1, column := 1 } rootLayout).2
        (by decide) (by decide) (by decide)).1 rfl
  · exact ((layout_done_spec instParser { offset := 6, line := 2, column := 3 }
      (Layout.new LayoutKind.Instance { offset := 0, line := 1, column := 5 })).2
        (by decide) (by decide) (by decide)).2.2.1 rfl

/-- C3 counterexample: polled at end-of-input while the top (and only)
layout context is `Root`, `layout_done()` does not abort — it returns
`true`. -/
theorem layout_done_spec_counterexample :
    (Parser.new { tokens := [] }).layouts.head? = some rootLayout ∧
    (Parser.new { tokens := [] }).layout_done = Except.ok true := by
  decide

/-- Whether the layout stack is non-empty with `Root` at the bottom. -/
def rootBottom (p : Parser) : Bool :=
  match p.layouts.getLast? with
  | some l => l.kind == LayoutKind.Root
  | none => false

theorem NodeMarker.end_ok_layouts {index : Nat} {p : Parser} {kind : SyntaxKind} {p' : Parser}
    (h : NodeMarker.end_ index p kind = Except.ok p') : p'.layouts = p.layouts := by
  unfold NodeMarker.end_ at h
  split at h
  · injection h with h
    subst h
    rfl
  · exact Except.noConfusion h
  · exact Except.noConfusion h

theorem NodeMarker.cancel_ok_layouts {index : Nat} {p : Parser} {p' : Parser}
    (h : NodeMarker.cancel index p = Except.ok p') : p'.layouts = p.layouts := by
  unfold NodeMarker.cancel at h
  split at h
  · split at h
    · injection h with h
      subst h
      rfl
    · exact Except.noConfusion h
  · injection h with h
    subst h
    rfl

theorem getLast?_cons_of_ne_nil {α : Type} (x : α) {xs : List α} (h : xs ≠ []) :
    (x :: xs).getLast? = xs.getLast? := by
  cases xs with
  | nil => exact absurd rfl h
  | cons y ys => exact List.getLast?_cons_cons

theorem rootBottom_ne_nil {p : Parser} (h : rootBottom p = true) : p.layouts ≠ [] := by
  intro h0
  rw [rootBottom, h0] at h
  simp at h

theorem Parser.layout_start_ok_layouts {p : Parser} {k : LayoutKind} {p' : Parser}
    (h : p.layout_start k = Except.ok p') :
    ∃ position, p'.layouts = Layout.new k position :: p.layouts := by
  unfold Parser.layout_start at h
  split at h
  · exact Except.noConfusion h
  · split at h
    · exact Except.noConfusion h
    · injection h with h
      subst h
      exact ⟨_, rfl⟩

/-- C4 (amended): a freshly created parser has a non-empty layout stack
with `Root` at the bottom, and every grammar-facing operation preserves
that — except `layout_end()`, which pops unconditionally and preserves
it only when more than one context is on the stack (that is, when the
caller's starts and ends are balanced). -/
theorem root_bottom_invariant (input : Input) (s s' : GState) (op : Op)
    (h : rootBottom s.parser = true)
    (hop : op = Op.layoutEnd → 1 < s.parser.layouts.length)
    (hrun : runOp s op = Except.ok s') :
    rootBottom (Parser.new input) = true ∧ rootBottom s'.parser = true := by
  refine ⟨rfl, ?_⟩
  cases op with
  | consume =>
    injection hrun with hrun
    subst hrun
    exact h
  | eat kind =>
    cases hat : s.parser.at_ kind with
    | false =>
      simp only [runOp, Parser.eat, hat, Bool.not_false, if_true] at hrun
      injection hrun with hrun
      subst hrun
      exact h
    | true =>
      simp only [runOp, Parser.eat, hat, Bool.not_true, if_false] at hrun
      injection hrun with hrun
      subst hrun
      exact h
  | start =>
    simp only [runOp, Parser.start] at hrun
    injection hrun with hrun
    subst hrun
    exact h
  | markerEnd index kind =>
    simp only [runOp] at hrun
    split at hrun
    case isFalse => exact Except.noConfusion hrun
    case isTrue =>
      cases hend : NodeMarker.end_ index s.parser kind with
      | error e => rw [hend] at hrun; exact Except.noConfusion hrun
      | ok p' =>
        rw [hend] at hrun
        simp only [Except.map] at hrun
        injection hrun with hrun
        subst hrun
        show rootBottom p' = true
        rw [rootBottom, NodeMarker.end_ok_layouts hend]
        exact h
  | markerCancel index =>
    simp only [runOp] at hrun
    split at hrun
    case isFalse => exact Except.noConfusion hrun
    case isTrue =>
      cases hcan : NodeMarker.cancel index s.parser with
      | error e => rw [hcan] at hrun; exact Except.noConfusion hrun
      | ok p' =>
        rw [hcan] at hrun
        simp only [Except.map] at hrun
        injection hrun with hrun
        subst hrun
        show rootBottom p' = true
        rw [rootBottom, NodeMarker.cancel_ok_layouts hcan]
        exact h
  | layoutStart kind =>
    simp only [runOp] at hrun
    cases hls : s.parser.layout_start kind with
    | error e => rw [hls] at hrun; exact Except.noConfusion hrun
    | ok p' =>
      rw [hls] at hrun
      simp only [Except.map] at hrun
      injection hrun with hrun
      subst hrun
      show rootBottom p' = true
      obtain ⟨position, hp'⟩ := Parser.layout_start_ok_layouts hls
      rw [rootBottom, hp', getLast?_cons_of_ne_nil _ (rootBottom_ne_nil h)]
      exact h
  | layoutEnd =>
    injection hrun with hrun
    subst hrun
    show rootBottom s.parser.layout_end = true
    have hlen := hop rfl
    obtain ⟨a, rest, hl⟩ : ∃ a rest, s.parser.layouts = a :: rest := by
      cases hc : s.parser.layouts with
      | nil => rw [hc] at hlen; simp at hlen
      | cons a rest => exact ⟨a, rest, rfl⟩
    have hrest : rest ≠ [] := by
      intro h0
      rw [hl, h0] at hlen
      simp at hlen
    rw [rootBottom] at h ⊢
    simp only [Parser.layout_end, hl, List.tail_cons]
    rw [hl, getLast?_cons_of_ne_nil _ hrest] at h
    exact h
  | pollLayoutDone =>
    simp only [runOp] at hrun
    cases hld : s.parser.layout_done with
    | error e => rw [hld] at hrun; exact Except.noConfusion hrun
    | ok b =>
      rw [hld] at hrun
      simp only [Except.map] at hrun
      injection hrun with hrun
      subst hrun
      exact h
  | pollGroupDone =>
    simp only [runOp] at hrun
    cases hgd : s.parser.group_done with
    | error e => rw [hgd] at hrun; exact Except.noConfusion hrun
    | ok b =>
      rw [hgd] at hrun
      simp only [Except.map] at hrun
      injection hrun with hrun
      subst hrun
      exact h
  | pollNth offset =>
    injection hrun with hrun
    subst hrun
    exact h
  | pollNthAt offset kind =>
    injection hrun with hrun
    subst hrun
    exact h
  | pollCurrent =>
    injection hrun with hrun
    subst hrun
    exact h
  | pollAt kind =>
    injection hrun with hrun
    subst hrun
    exact h
  | pollIsEof =>
    injection hrun with hrun
    subst hrun
    exact h

/-- C4 witness: the invariant at a fresh parser and across a concrete
`consume`. -/
theorem root_bottom_invariant_witness :
    rootBottom (Parser.new oneTokenInput) = true ∧
    rootBottom { input := oneTokenInput, index := 1, layouts := [rootLayout]
                 events := [Event.token SyntaxKind.Upper] : Parser } = true :=
  root_bottom_invariant oneTokenInput (initState oneTokenInput)
    { parser := { input := oneTokenInput, index := 1, layouts := [rootLayout]
                  events := [Event.token SyntaxKind.Upper] }
      armed := [] }
    Op.consume (by decide) (by decide) (by decide)

/-- C4 counterexample: `layout_end()` on a fresh parser pops the `Root`
context, leaving the layout stack empty — so the invariant is not
preserved by every grammar-facing operation. -/
theorem root_bottom_invariant_counterexample :
    (Parser.new { tokens := [] }).layout_end.layouts = [] ∧
    rootBottom (Parser.new { tokens := [] }).layout_end = false := by
  decide

/-- C5: for an `Instance` context on top of the stack (current token
present, its line not preceding the anchor line), both `layout_done()`
and `group_done()` return `true` iff the current token's column is less
than or equal to the anchor's column — including equality. -/
theorem instance_offside (p : Parser) (position : Position) (layout : Layout)
    (hpos : p.input.position? p.index = some position)
    (hhead : p.layouts.head? = some layout)
    (hkind : layout.kind = LayoutKind.Instance)
    (hline : layout.position.line ≤ position.line) :
    p.layout_done = Except.ok (decide (position.column ≤ layout.position.column)) ∧
    p.group_done = Except.ok (decide (position.column ≤ layout.position.column)) := by
  obtain ⟨t, ht, hpt⟩ := Option.map_eq_some'.mp hpos
  have hlt : p.index < p.input.tokens.length := (List.get?_eq_some.mp ht).1
  have heof : p.is_eof = false := by
    simp only [Parser.is_eof, Input.len, beq_eq_false_iff_ne, ne_eq]
    omega
  have hnl : ¬(position.line < layout.position.line) := not_lt.mpr hline
  constructor <;>
    simp [Parser.layout_done, Parser.group_done, heof, hpos, hhead, hnl, hkind]

/-- C5 witness: column 3 against anchor column 5, and the equality case
column 5 against anchor column 5 — both predicates fire. -/
theorem instance_offside_witness :
    instParser.layout_done = Except.ok true ∧ instParser.group_done = Except.ok true ∧
    instEqParser.layout_done = Except.ok true ∧ instEqParser.group_done = Except.ok true := by
  have h1 := instance_offside instParser { offset := 6, line := 2, column := 3 }
    (Layout.new LayoutKind.Instance { offset := 0, line := 1, column := 5 })
    (by decide) (by decide) (by decide) (by decide)
  have h2 := instance_offside instEqParser { offset := 6, line := 2, column := 5 }
    (Layout.new LayoutKind.Instance { offset := 0, line := 1, column := 5 })
    (by decide) (by decide) (by decide) (by decide)
  exact ⟨h1.1, h1.2, h2.1, h2.2⟩

/-- A parser inside a `Module` context anchored at column 3, whose
current token sits at line 2, column 3 (a sibling group item). -/
def moduleParser : Parser :=
  { input := { tokens := [{ kind := SyntaxKind.Lower
                            position := { offset := 0, line := 1, column := 3 } },
                          { kind := SyntaxKind.Lower
                            position := { offset := 10, line := 2, column := 3 } }] }
    index := 1
    layouts := [Layout.new LayoutKind.Module { offset := 0, line := 1, column := 3 }, rootLayout]
    events := [Event.token SyntaxKind.Lower] }

/-- Like `moduleParser`, but the current token sits at column 7, deeper
than the anchor (a continuation line). -/
def moduleContParser : Parser :=
  { input := { tokens := [{ kind := SyntaxKind.Lower
                            position := { offset := 0, line := 1, column := 3 } },
                          { kind := SyntaxKind.Lower
                            position := { offset := 10, line := 2, column := 7 } }] }
    index := 1
    layouts := [Layout.new LayoutKind.Module { offset := 0, line := 1, column := 3 }, rootLayout]
    events := [Event.token SyntaxKind.Lower] }

/-- C6 (amended): for a `Module` context on top of the stack, when the
parser is not at end-of-input (current token present, line not
preceding the anchor line): `group_done()` returns `true` iff the
current column equals the anchor column exactly, a column strictly
greater than the anchor column never ends the group, and
`layout_done()` returns `false`.  (At end-of-input both predicates
return `true` instead.) -/
theorem module_rules (p : Parser) (position : Position) (layout : Layout)
    (hpos : p.input.position? p.index = some position)
    (hhead : p.layouts.head? = some layout)
    (hkind : layout.kind = LayoutKind.Module)
    (hline : layout.position.line ≤ position.line) :
    p.group_done = Except.ok (decide (position.column = layout.position.column)) ∧
    (layout.position.column < position.column → p.group_done = Except.ok false) ∧
    p.layout_done = Except.ok false := by
  obtain ⟨t, ht, hpt⟩ := Option.map_eq_some'.mp hpos
  have hlt : p.index < p.input.tokens.length := (List.get?_eq_some.mp ht).1
  have heof : p.is_eof = false := by
    simp only [Parser.is_eof, Input.len, beq_eq_false_iff_ne, ne_eq]
    omega
  have hnl : ¬(position.line < layout.position.line) := not_lt.mpr hline
  have hgd : p.group_done = Except.ok (decide (position.column = layout.position.column)) := by
    simp [Parser.group_done, heof, hpos, hhead, hnl, hkind]
  refine ⟨hgd, ?_, ?_⟩
  · intro hgt
    rw [hgd]
    simp [Nat.ne_of_gt hgt]
  · simp [Parser.layout_done, heof, hpos, hhead, hnl, hkind]

/-- C6 witness: a sibling at the anchor column ends the group, a deeper
column does not, and `layout_done` stays `false` either way. -/
theorem module_rules_witness :
    moduleParser.group_done = Except.ok true ∧
    moduleParser.layout_done = Except.ok false ∧
    moduleContParser.group_done = Except.ok false ∧
    moduleContParser.layout_done = Except.ok false := by
  have h1 := module_rules moduleParser { offset := 10, line := 2, column := 3 }
    (Layout.new LayoutKind.Module { offset := 0, line := 1, column := 3 })
    (by decide) (by decide) (by decide) (by decide)
  have h2 := module_rules moduleContParser { offset := 10, line := 2, column := 7 }
    (Layout.new LayoutKind.Module { offset := 0, line := 1, column := 3 })
    (by decide) (by decide) (by decide) (by decide)
  exact ⟨h1.1, h1.2.2, h2.2.1 (by decide), h2.2.2⟩

/-- C6 counterexample: after `layout_start(Module); consume` on a
one-token input the parser is at end-of-input with `Module` on top, and
`layout_done()` returns `true`, not `false`. -/
theorem module_rules_counterexample :
    (run (initState oneTokenInput) [Op.layoutStart LayoutKind.Module, Op.consume]
      = Except.ok
          { parser := { input := oneTokenInput, index := 1
                        layouts := [Layout.new LayoutKind.Module
                                      { offset := 0, line := 1, column := 1 }, rootLayout]
                        events := [Event.token SyntaxKind.Upper] }
            armed := [] }) ∧
    ({ input := oneTokenInput, index := 1
       layouts := [Layout.new LayoutKind.Module { offset := 0, line := 1, column := 1 }, rootLayout]
       events := [Event.token SyntaxKind.Upper] : Parser }).layouts.head?
      = some (Layout.new LayoutKind.Module { offset := 0, line := 1, column := 1 }) ∧
    ({ input := oneTokenInput, index := 1
       layouts := [Layout.new LayoutKind.Module { offset := 0, line := 1, column := 1 }, rootLayout]
       events := [Event.token SyntaxKind.Upper] : Parser }).layout_done = Except.ok true := by
  decide

theorem set_concat_length {α : Type} (es : List α) (x v : α) :
    (es ++ [x]).set es.length v = es ++ [v] := by
  induction es with
  | nil => rfl
  | cons e es ih => simp [ih]

/-- C7: the marker round-trip.  `start()` immediately followed by
`end(kind)` appends exactly the pair `Start kind, Finish` to the log;
`start()` immediately followed by `cancel()` restores the parser
exactly — zero net events. -/
theorem marker_roundtrip (p : Parser) (kind : SyntaxKind) :
    NodeMarker.end_ (p.start).1 (p.start).2 kind
      = Except.ok { p with events := p.events ++ [Event.start kind, Event.finish] } ∧
    NodeMarker.cancel (p.start).1 (p.start).2 = Except.ok p := by
  have hget : (p.events ++ [Event.start SyntaxKind.Sentinel]).get? p.events.length
      = some (Event.start SyntaxKind.Sentinel) := List.get?_concat_length _ _
  have hset : (p.events ++ [Event.start SyntaxKind.Sentinel]).set p.events.length
        (Event.start kind) = p.events ++ [Event.start kind] := set_concat_length _ _ _
  constructor
  · simp only [Parser.start, NodeMarker.end_, hget, hset]
    simp
  · simp only [Parser.start, NodeMarker.cancel, List.length_append, List.length_cons,
      List.length_nil, Nat.add_sub_cancel, beq_self_eq_true, if_true,
      List.getLast?_concat, List.dropLast_concat]

/-- C8: when a current token exists (the parser is not at end-of-input)
and its line precedes the top context's anchor line, both
`layout_done()` and `group_done()` abort fatally on their shared line
assertion. -/
theorem line_assertion (p : Parser) (position : Position) (layout : Layout)
    (hpos : p.input.position? p.index = some position)
    (hhead : p.layouts.head? = some layout)
    (hline : position.line < layout.position.line) :
    p.layout_done = Except.error assertLineMsg ∧
    p.group_done = Except.error assertLineMsg := by
  obtain ⟨t, ht, hpt⟩ := Option.map_eq_some'.mp hpos
  have hlt : p.index < p.input.tokens.length := (List.get?_eq_some.mp ht).1
  have heof : p.is_eof = false := by
    simp only [Parser.is_eof, Input.len, beq_eq_false_iff_ne, ne_eq]
    omega
  constructor <;>
    simp [Parser.layout_done, Parser.group_done, heof, hpos, hhead, hline]

/-- A parser whose current token's line (3) precedes its `Instance`
anchor's line (5). -/
def lineParser : Parser :=
  { input := { tokens := [{ kind := SyntaxKind.Lower
                            position := { offset := 0, line := 5, column := 1 } },
                          { kind := SyntaxKind.Lower
                            position := { offset := 8, line := 3, column := 1 } }] }
    index := 1
    layouts := [Layout.new LayoutKind.Instance { offset := 0, line := 5, column := 1 }, rootLayout]
    events := [Event.token SyntaxKind.Lower] }

/-- C8 witness: the assertion fires at `lineParser`. -/
theorem line_assertion_witness :
    lineParser.layout_done = Except.error assertLineMsg ∧
    lineParser.group_done = Except.error assertLineMsg :=
  line_assertion lineParser { offset := 8, line := 3, column := 1 }
    (Layout.new LayoutKind.Instance { offset := 0, line := 5, column := 1 })
    (by decide) (by decide) (by decide)

/-- C9: `eat(kind)` is exactly a conditional `consume()`: on a kind
match it consumes (one `Token` event, index advanced by one) and
returns `true`; otherwise it returns `false` and leaves the parser
untouched. -/
theorem eat_spec (p : Parser) (kind : SyntaxKind) :
    p.eat kind = (p.at_ kind, if p.at_ kind = true then p.consume else p) ∧
    ((p.eat kind).1 = true ↔ p.current = kind) ∧
    (p.current = kind →
      (p.eat kind).1 = true ∧
      (p.eat kind).2.events = p.events ++ [Event.token p.current] ∧
      (p.eat kind).2.index = p.index + 1) ∧
    (p.current ≠ kind → p.eat kind = (false, p)) := by
  by_cases hc : p.current = kind
  · have hat : p.at_ kind = true := by
      simp only [Parser.at_, Parser.nth_at, decide_eq_true_eq]
      exact hc
    simp [Parser.eat, hat, hc, Parser.consume]
  · have hat : p.at_ kind = false := by
      simp only [Parser.at_, Parser.nth_at, decide_eq_false_iff_not]
      exact hc
    simp [Parser.eat, hat, hc]

/-- C9 witness: `eat` of the matching kind consumes; `eat` of a
non-matching kind is the identity returning `false`. -/
theorem eat_spec_witness :
    ((Parser.new oneTokenInput).eat SyntaxKind.Upper).2.events
        = [Event.token SyntaxKind.Upper] ∧
    (Parser.new oneTokenInput).eat SyntaxKind.Lower = (false, Parser.new oneTokenInput) := by
  constructor
  · have h := (eat_spec (Parser.new oneTokenInput) SyntaxKind.Upper).2.2.1 (by decide)
    rw [h.2.1]
    decide
  · exact (eat_spec (Parser.new oneTokenInput) SyntaxKind.Lower).2.2.2 (by decide)

/-- C10: the read-only queries (`nth`, `nth_at`, `current`, `at`,
`is_eof`, `layout_done`, `group_done`) leave the machine state — cursor
index, layout stack, event log and armed markers — unchanged whenever
they return, and polling again from the resulting state yields the very
same answers. -/
theorem readonly_queries_frame (s s₁ s₂ : GState) (offset : Nat) (kind : SyntaxKind) :
    (runOp s Op.pollLayoutDone = Except.ok s₁ →
      s₁ = s ∧ s₁.parser.layout_done = s.parser.layout_done) ∧
    (runOp s Op.pollGroupDone = Except.ok s₂ →
      s₂ = s ∧ s₂.parser.group_done = s.parser.group_done) ∧
    runOp s (Op.pollNth offset) = Except.ok s ∧
    runOp s (Op.pollNthAt offset kind) = Except.ok s ∧
    runOp s Op.pollCurrent = Except.ok s ∧
    runOp s (Op.pollAt kind) = Except.ok s ∧
    runOp s Op.pollIsEof = Except.ok s := by
  refine ⟨?_, ?_, rfl, rfl, rfl, rfl, rfl⟩
  · intro h
    cases hld : s.parser.layout_done with
    | error e =>
      rw [runOp, hld] at h
      exact Except.noConfusion h
    | ok b =>
      rw [runOp, hld] at h
      simp only [Except.map] at h
      injection h with h
      subst h
      exact ⟨rfl, hld⟩
  · intro h
    cases hgd : s.parser.group_done with
    | error e =>
      rw [runOp, hgd] at h
      exact Except.noConfusion h
    | ok b =>
      rw [runOp, hgd] at h
      simp only [Except.map] at h
      injection h with h
      subst h
      exact ⟨rfl, hgd⟩

/-- C10 witness: the queries at a concrete state. -/
theorem readonly_queries_frame_witness :
    (initState { tokens := [] } = initState { tokens := [] } ∧
      (initState { tokens := [] }).parser.layout_done
        = (initState { tokens := [] }).parser.layout_done) ∧
    runOp (initState { tokens := [] }) (Op.pollNth 0) = Except.ok (initState { tokens := [] }) :=
  ⟨(readonly_queries_frame (initState { tokens := [] }) (initState { tokens := [] })
      (initState { tokens := [] }) 0 SyntaxKind.Upper).1 (by decide),
   (readonly_queries_frame (initState { tokens := [] }) (initState { tokens := [] })
      (initState { tokens := [] }) 0 SyntaxKind.Upper).2.2.1⟩

example : (Parser.new { tokens := [] }).is_eof = true := by decide
example : (Parser.new { tokens := [] }).consume.events = [Event.token SyntaxKind.EndOfFile] := by decide
example : (Parser.new { tokens := [] }).layout_done = Except.ok true := by decide
example :
    (Parser.new { tokens := [{ kind := SyntaxKind.Upper
                               position := { offset := 0, line := 1, column := 1 } }] }).layout_done
      = Except.error "Invalid call." := by decide
